import Mathlib

/-!
# Verification of the ik_creatures kinematic chain engine

A shallow embedding of `src/ik.rs` from the `ik_creatures_v2` repository.
Machine floats (`f32`) are idealised as real numbers, `glam::Vec2::to_angle`
(which is `atan2(y, x)`) as `Complex.arg`, `glam::Vec2::from_angle` as
`(cos θ, sin θ)`. Code paths that panic in Rust (indexing an empty vector,
`usize` underflow followed by an out-of-bounds index, the `min <= max`
assertion inside `f32::clamp`) are modelled by `Option`, with `none` the
panic. Calls to `log::warn!` are modelled by a returned `List String`.
-/

open Real

noncomputable section

/-- `std::f32::consts::TAU`, idealised. -/
def TAU : ℝ := 2 * Real.pi

/-- 2D vector, `glam::Vec2` idealised over ℝ. -/
structure Vec2 where
  x : ℝ
  y : ℝ

instance : Add Vec2 := ⟨fun a b => ⟨a.x + b.x, a.y + b.y⟩⟩

instance : Sub Vec2 := ⟨fun a b => ⟨a.x - b.x, a.y - b.y⟩⟩

/-- `glam` vector-times-scalar multiplication `v * s`. -/
def Vec2.scale (v : Vec2) (s : ℝ) : Vec2 := ⟨v.x * s, v.y * s⟩

/-- `glam::Vec2::to_angle`, i.e. `atan2(y, x)`: the argument of `x + y i`. -/
def Vec2.to_angle (v : Vec2) : ℝ := Complex.arg ⟨v.x, v.y⟩

/-- `glam::Vec2::from_angle`: `(cos θ, sin θ)`. -/
def Vec2.from_angle (θ : ℝ) : Vec2 := ⟨Real.cos θ, Real.sin θ⟩

/-- `glam::Vec2::length`. -/
def Vec2.length (v : Vec2) : ℝ := Real.sqrt (v.x ^ 2 + v.y ^ 2)

/-- `struct Node` from `ik.rs` (same field order). -/
structure Node where
  radius : ℝ
  pos : Vec2
  rotation : ℝ
  max_rotation : ℝ
  min_rotation : ℝ

/-- `Node::DEFAULT_ANGLE = 0.6981317` (40 degrees). -/
def Node.DEFAULT_ANGLE : ℝ := 0.6981317

/-- `impl Default for Node`. -/
def Node.mkDefault : Node :=
  { radius := 80
    pos := ⟨0, 0⟩
    rotation := 0
    max_rotation := Node.DEFAULT_ANGLE
    min_rotation := -Node.DEFAULT_ANGLE }

/-- `Node::new`: new node of size radius with default values. -/
def Node.new (radius : ℝ) : Node :=
  { Node.mkDefault with radius := radius }

/-- `Node::locked`: same min and max rotation. -/
def Node.locked (radius rotation : ℝ) : Node :=
  { Node.mkDefault with
      radius := radius
      max_rotation := rotation
      min_rotation := rotation }

/-- `Node::unlocked`: 360-degree rotation (`±TAU`). -/
def Node.unlocked (radius : ℝ) : Node :=
  { Node.mkDefault with
      radius := radius
      max_rotation := TAU
      min_rotation := -TAU }

/-- `Node::angle`: min/max rotation in range `-|angle|` to `|angle|`. -/
def Node.angle (radius angle : ℝ) : Node :=
  { Node.mkDefault with
      radius := radius
      max_rotation := |angle|
      min_rotation := -|angle| }

/-- `Node::angles`: explicit min and max. -/
def Node.angles (radius min max : ℝ) : Node :=
  { Node.mkDefault with
      radius := radius
      max_rotation := max
      min_rotation := min }

/-- `NodeID(u32)`; idealised as ℕ (the counter increment never overflows). -/
abbrev NodeID := ℕ

/-- `struct NodeManager`: the id counter plus the `HashMap<NodeID, Node>`,
the map modelled as a partial function. -/
structure NodeManager where
  current_id : NodeID
  nodes : NodeID → Option Node

/-- `NodeManager::default` / `NodeManager::new`. -/
def NodeManager.new : NodeManager := ⟨0, fun _ => none⟩

/-- `NodeManager::insert`: assigns the next id, bumps the counter.
Returns the assigned id together with the updated store. -/
def NodeManager.insert (m : NodeManager) (node : Node) : NodeID × NodeManager :=
  (m.current_id, ⟨m.current_id + 1, Function.update m.nodes m.current_id (some node)⟩)

/-- `NodeManager::get_node`. -/
def NodeManager.get_node (m : NodeManager) (id : NodeID) : Option Node :=
  m.nodes id

/-- The `log::warn!` text emitted by `get_nodes_mut` when ids are missing. -/
def missingNodesMsg : String := "Invalid ik - some nodes do not exist"

/-- The `log::warn!` text emitted by `fabrik` on a too-short chain. -/
def invalidCountMsg (n : ℕ) : String := "Invalid ik node count " ++ toString n

/-- `NodeManager::get_nodes_mut`: collects the store entries whose id occurs in
`node_ids` (one per distinct present id, mirroring the `HashMap` filter); if
fewer than `node_ids.len()` were found it warns and returns the empty vector,
otherwise it returns the nodes in `node_ids` order. -/
def NodeManager.get_nodes_mut (m : NodeManager) (node_ids : List NodeID) :
    List Node × List String :=
  if (node_ids.dedup.filterMap m.nodes).length < node_ids.length then
    ([], [missingNodesMsg])
  else
    (node_ids.filterMap m.nodes, [])

/-- `struct ForwardKinematic`. -/
structure ForwardKinematic where
  nodes : List NodeID

/-- `struct InverseKinematic`. -/
structure InverseKinematic where
  nodes : List NodeID
  anchor : Option Vec2
  target : Vec2
  cycles : ℕ

/-- `angle_diff` from `ik.rs`: difference of two angles, single-wrapped. -/
def angle_diff (a b : ℝ) : ℝ :=
  let a := a - b
  if a > Real.pi then a - TAU
  else if a < -Real.pi then a + TAU
  else a

/-- Rust `f32` truncation toward zero (used by the `%` operator). -/
def rustTrunc (x : ℝ) : ℤ := if 0 ≤ x then ⌊x⌋ else ⌈x⌉

/-- Rust `%` on floats: remainder with the sign of the dividend,
`x - y * trunc(x / y)`. -/
def rustRem (x y : ℝ) : ℝ := x - y * rustTrunc (x / y)

/-- `_wrap_angle` from `ik.rs`: `(angle + PI) % TAU - PI`. -/
def _wrap_angle (angle : ℝ) : ℝ := rustRem (angle + Real.pi) TAU - Real.pi

/-- Rust `f32::clamp(self, min, max)`: asserts `min <= max` (panic modelled as
`none`), otherwise clamps. -/
def rustClamp (x lo hi : ℝ) : Option ℝ :=
  if lo ≤ hi then some (min hi (max x lo)) else none

/-- `attach_node_rotations` from `ik.rs`: the constrained attach step (child
rotation derived from the direction child → parent, clamped relative to the
parent's rotation; child placed at `parent.pos - from_angle(rot) * parent.radius`). -/
def attach_node_rotations (parent child : Node) : Option Node :=
  let direction_vector := parent.pos - child.pos
  let rot0 := direction_vector.to_angle
  let rotation_diff := angle_diff rot0 parent.rotation
  match rustClamp rotation_diff child.min_rotation child.max_rotation with
  | none => none
  | some rd =>
      let rot := parent.rotation + rd
      some { child with
              rotation := rot
              pos := parent.pos - (Vec2.from_angle rot).scale parent.radius }

/-- `attach_node` from `ik.rs`: the unconstrained attach step. -/
def attach_node (parent child : Node) : Node :=
  let rot := (parent.pos - child.pos).to_angle
  { child with
      rotation := rot
      pos := parent.pos - (Vec2.from_angle rot).scale parent.radius }

/-- The forward (root→tail) propagation loop shared by `process_fk` and the
forward pass of `fabrik`: each child is attached to the already-updated parent. -/
def fkChain : Node → List Node → Option (List Node)
  | _, [] => some []
  | parent, child :: rest =>
      match attach_node_rotations parent child with
      | none => none
      | some c =>
          match fkChain c rest with
          | none => none
          | some rest2 => some (c :: rest2)

/-- The backward (tail→root) pass of `fabrik`, expressed on the reversed
suffix: each node is attached (unconstrained) to the already-updated
neighbour nearer the tail. -/
def backChain : Node → List Node → List Node
  | _, [] => []
  | parent, child :: rest =>
      let c := attach_node parent child
      c :: backChain c rest

/-- Writing the solved chain nodes back into the store: the in-place mutations
through `get_nodes_mut`'s references, as a bulk update keyed by the chain ids. -/
def writeBack (m : NodeManager) (ids : List NodeID) (ns : List Node) : NodeManager :=
  ⟨m.current_id, (ids.zip ns).foldl (fun f p => Function.update f p.1 (some p.2)) m.nodes⟩

/-- `process_fk` from `ik.rs`. `none` models a panic: with a chain of length
≥ 2 whose ids are missing or duplicated, `get_nodes_mut` returns the empty
vector and the loop's `split_at_mut(1)` panics; `none` also covers the
`clamp` assertion failing on a node with `min_rotation > max_rotation`. -/
def process_fk (m : NodeManager) (fk : ForwardKinematic) :
    Option NodeManager × List String :=
  if fk.nodes.length < 2 then (some m, [])
  else
    let r := m.get_nodes_mut fk.nodes
    match r.1 with
    | [] => (none, r.2)
    | h :: t =>
        match fkChain h t with
        | none => (none, r.2)
        | some t2 => (some (writeBack m fk.nodes (h :: t2)), r.2)

/-- Junk node used only to express `nodes[last]` on a list already known to be
nonempty. -/
def junkNode : Node := ⟨0, ⟨0, 0⟩, 0, 0, 0⟩

/-- `nodes[nodes.len() - 1]` for a nonempty list. -/
def lastD (ns : List Node) : Node := ns.reverse.headD junkNode

/-- One `for _ in 0..ik.cycles` iteration of `fabrik`: pin the tail to the
target, run the backward pass, repin the root to the anchor and its initial
rotation, run the constrained forward pass. -/
def fabrikCycle (target anchor : Vec2) (initial_rot : ℝ) (ns : List Node) :
    Option (List Node) :=
  match ns.reverse with
  | [] => some []
  | tl :: rest =>
      let tl2 := { tl with pos := target }
      match (tl2 :: backChain tl2 rest).reverse with
      | [] => some []
      | h :: t =>
          let h2 := { h with pos := anchor, rotation := initial_rot }
          match fkChain h2 t with
          | none => none
          | some t2 => some (h2 :: t2)

/-- The `for _ in 0..ik.cycles` loop of `fabrik`, with the early `return true`
when the tail ends a cycle within distance 1 of the target. -/
def fabrikLoop (target anchor : Vec2) (initial_rot : ℝ) :
    ℕ → List Node → Option (Bool × List Node)
  | 0, ns => some (false, ns)
  | Nat.succ k, ns =>
      match fabrikCycle target anchor initial_rot ns with
      | none => none
      | some ns2 =>
          if ((lastD ns2).pos - target).length < 1 then some (true, ns2)
          else fabrikLoop target anchor initial_rot k ns2

/-- `fabrik` from `ik.rs`. `none` models a panic: with a chain of length ≥ 3
whose ids are missing or duplicated, `get_nodes_mut` returns the empty vector
and `nodes[0]` (after the `nodes.len() - 1` underflow) panics; `none` also
covers the `clamp` assertion inside the forward pass. -/
def fabrik (m : NodeManager) (ik : InverseKinematic) :
    Option (Bool × NodeManager) × List String :=
  if ik.nodes.length < 3 then
    (some (false, m), [invalidCountMsg ik.nodes.length])
  else
    let r := m.get_nodes_mut ik.nodes
    match r.1 with
    | [] => (none, r.2)
    | h :: t =>
        let initial_rot := h.rotation
        let anchor := match ik.anchor with
          | some a => a
          | none => h.pos
        match fabrikLoop ik.target anchor initial_rot ik.cycles (h :: t) with
        | none => (none, r.2)
        | some (b, ns2) => (some (b, writeBack m ik.nodes ns2), r.2)

/-- Equality of the fields the solvers never touch. -/
def FieldsEq (a b : Node) : Prop :=
  a.radius = b.radius ∧ a.min_rotation = b.min_rotation ∧ a.max_rotation = b.max_rotation

/-- Frame conditions of one solver call on the store: id counter unchanged,
nodes outside the chain untouched, the set of ids unchanged, and `radius`,
`min_rotation`, `max_rotation` of every node unchanged. -/
def frameProps (m : NodeManager) (ids : List NodeID) (m2 : NodeManager) : Prop :=
  m2.current_id = m.current_id ∧
  (∀ id, id ∉ ids → m2.nodes id = m.nodes id) ∧
  (∀ id, (m2.nodes id).isSome = (m.nodes id).isSome) ∧
  ∀ id n n2, m.nodes id = some n → m2.nodes id = some n2 → FieldsEq n2 n

/-- Store-wide rotation-limit invariant. -/
def InvStore (m : NodeManager) : Prop :=
  ∀ id n, m.nodes id = some n → n.min_rotation ≤ n.max_rotation

/-- A node of an unconstrained straight chain on the x-axis. -/
def straightNode (r px ρ : ℝ) : Node := ⟨r, ⟨px, 0⟩, ρ, TAU, -TAU⟩

/-- Store holding a fully-extended unconstrained 3-node chain on the x-axis
(ids 0, 1, 2), the root at the origin. -/
def straightM (r0 r1 r2 : ℝ) : NodeManager :=
  ⟨3, fun id =>
    if id = 0 then some (straightNode r0 0 0)
    else if id = 1 then some (straightNode r1 r0 0)
    else if id = 2 then some (straightNode r2 (r0 + r1) 0)
    else none⟩

/-- Inverse chain over ids 0, 1, 2, anchored at the origin, target on the
x-axis at distance `d`. -/
def straightIK (d : ℝ) (cycles : ℕ) : InverseKinematic :=
  ⟨[0, 1, 2], some ⟨0, 0⟩, ⟨d, 0⟩, cycles⟩

/-- Store with a single node (id 0): input exhibiting the missing-id panic. -/
def soloM : NodeManager := ⟨1, fun id => if id = 0 then some (Node.new 80) else none⟩

/-- A fabrik chain naming the absent ids 1 and 2. -/
def danglingIK : InverseKinematic := ⟨[0, 1, 2], none, ⟨0, 0⟩, 5⟩

/-- An fk chain naming the absent id 1. -/
def danglingFK : ForwardKinematic := ⟨[0, 1]⟩

/-- Parent node for the two-node fk chain examples. -/
def pairA : Node := ⟨1, ⟨0, 0⟩, 0, 1, -1⟩

/-- Locked child node sitting to the right of its parent. -/
def pairB : Node := ⟨1, ⟨1, 0⟩, 0, 0, 0⟩

/-- The value `process_fk` computes for the locked child of `pairM`. -/
def pairB2 : Node := ⟨1, ⟨-1, 0⟩, 0, 0, 0⟩

/-- Store holding the parent (id 0) and the locked child (id 1). -/
def pairM : NodeManager :=
  ⟨2, fun id => if id = 0 then some pairA else if id = 1 then some pairB else none⟩

/-- The two-node forward chain over `pairM`. -/
def pairFK : ForwardKinematic := ⟨[0, 1]⟩

/-- A two-node inverse chain (too short for FABRIK). -/
def shortIK : InverseKinematic := ⟨[0, 1], none, ⟨0, 0⟩, 3⟩

end

/-! ## Basic computation lemmas -/

@[simp]
theorem Vec2.sub_mk (a b c d : ℝ) : (Vec2.mk a b) - (Vec2.mk c d) = ⟨a - c, b - d⟩ := rfl

@[simp]
theorem Vec2.add_mk (a b c d : ℝ) : (Vec2.mk a b) + (Vec2.mk c d) = ⟨a + c, b + d⟩ := rfl

@[simp]
theorem Vec2.scale_mk (a b s : ℝ) : (Vec2.mk a b).scale s = ⟨a * s, b * s⟩ := rfl

theorem to_angle_posx (c : ℝ) (h : 0 < c) : (Vec2.mk c 0).to_angle = 0 := by
  have hc : (⟨c, 0⟩ : ℂ) = (c : ℂ) := by apply Complex.ext <;> simp
  simp only [Vec2.to_angle]
  rw [hc]
  exact Complex.arg_ofReal_of_nonneg h.le

theorem to_angle_negx (c : ℝ) (h : c < 0) : (Vec2.mk c 0).to_angle = Real.pi := by
  have hc : (⟨c, 0⟩ : ℂ) = (c : ℂ) := by apply Complex.ext <;> simp
  simp only [Vec2.to_angle]
  rw [hc]
  exact Complex.arg_ofReal_of_neg h

@[simp]
theorem from_angle_zero : Vec2.from_angle 0 = ⟨1, 0⟩ := by
  simp [Vec2.from_angle]

@[simp]
theorem from_angle_pi : Vec2.from_angle Real.pi = ⟨-1, 0⟩ := by
  simp [Vec2.from_angle]

theorem length_x (a : ℝ) : (Vec2.mk a 0).length = |a| := by
  simp [Vec2.length, Real.sqrt_sq_eq_abs]

theorem angle_diff_pi_zero : angle_diff Real.pi 0 = Real.pi := by
  have hπ := Real.pi_pos
  simp only [angle_diff, sub_zero]
  rw [if_neg (by linarith), if_neg (by linarith)]

theorem angle_diff_pi_pi : angle_diff Real.pi Real.pi = 0 := by
  have hπ := Real.pi_pos
  simp only [angle_diff, sub_self]
  rw [if_neg (by linarith), if_neg (by linarith)]

theorem rustClamp_locked (x k : ℝ) : rustClamp x k k = some k := by
  simp only [rustClamp, if_pos le_rfl, min_eq_left (le_max_right x k)]

theorem rustClamp_unconstrained (x : ℝ) (h1 : -TAU ≤ x) (h2 : x ≤ TAU) :
    rustClamp x (-TAU) TAU = some x := by
  have hτ : (0 : ℝ) ≤ TAU := by simp [TAU]; positivity
  simp only [rustClamp, if_pos (by linarith : -TAU ≤ TAU)]
  rw [max_eq_left h1, min_eq_right h2]

/-- Attaching a locked child (`min_rotation = max_rotation = k`) never consults
the geometry: rotation becomes `parent.rotation + k`. -/
theorem anr_locked (p c : Node) (k : ℝ)
    (hmin : c.min_rotation = k) (hmax : c.max_rotation = k) :
    attach_node_rotations p c =
      some { c with
              rotation := p.rotation + k
              pos := p.pos - (Vec2.from_angle (p.rotation + k)).scale p.radius } := by
  simp only [attach_node_rotations, hmin, hmax, rustClamp_locked]

/-! ## C2: angle_diff -/

/-- C2 counterexample: `angle_diff` can return exactly `-π` (at `a - b = -π`)
and can return `2π` (at `a - b = 4π`), so the result neither always lies
in the half-open interval `(-π, π]` nor is it always at most `π`. -/
theorem angle_diff_counterexample :
    angle_diff (-Real.pi) 0 = -Real.pi ∧
    ¬ (-Real.pi < angle_diff (-Real.pi) 0) ∧
    angle_diff (4 * Real.pi) 0 = 2 * Real.pi ∧
    ¬ (angle_diff (4 * Real.pi) 0 ≤ Real.pi) := by
  have hπ := Real.pi_pos
  have h1 : angle_diff (-Real.pi) 0 = -Real.pi := by
    simp only [angle_diff, sub_zero, TAU]
    rw [if_neg (by linarith), if_neg (by linarith)]
  have h2 : angle_diff (4 * Real.pi) 0 = 2 * Real.pi := by
    simp only [angle_diff, sub_zero, TAU]
    rw [if_pos (by linarith)]
    ring
  refine ⟨h1, by rw [h1]; simp, h2, by rw [h2]; linarith⟩

/-- C2 (amended): `angle_diff a b` is always congruent to `a - b` modulo `2π`,
and whenever `a - b` lies in `[-3π, 3π]` the result lies in the closed
interval `[-π, π]` (the endpoint `-π` is attainable). -/
theorem angle_diff_spec (a b : ℝ) :
    (∃ k : ℤ, angle_diff a b = a - b + k * TAU) ∧
    (-(3 * Real.pi) ≤ a - b → a - b ≤ 3 * Real.pi →
      -Real.pi ≤ angle_diff a b ∧ angle_diff a b ≤ Real.pi) := by
  have hπ := Real.pi_pos
  simp only [angle_diff, TAU]
  split_ifs with h1 h2
  · exact ⟨⟨-1, by push_cast; ring⟩, fun ha hb => ⟨by linarith, by linarith⟩⟩
  · exact ⟨⟨1, by push_cast; ring⟩, fun ha hb => ⟨by linarith, by linarith⟩⟩
  · exact ⟨⟨0, by push_cast; ring⟩, fun ha hb => ⟨by linarith, by linarith⟩⟩

/-- C2 witness at `a = π`, `b = 0`. -/
theorem angle_diff_spec_witness :
    (∃ k : ℤ, angle_diff Real.pi 0 = Real.pi - 0 + k * TAU) ∧
    (-Real.pi ≤ angle_diff Real.pi 0 ∧ angle_diff Real.pi 0 ≤ Real.pi) := by
  have hπ := Real.pi_pos
  exact ⟨(angle_diff_spec Real.pi 0).1,
    (angle_diff_spec Real.pi 0).2 (by linarith) (by linarith)⟩

/-! ## C7: _wrap_angle -/

/-- C7 counterexample: `_wrap_angle π = -π` (outside the claimed half-open
interval `(-π, π]`) and `_wrap_angle (-2π) = -2π` (a negative input left
entirely unnormalised, since Rust `%` keeps the dividend's sign). -/
theorem wrap_angle_counterexample :
    _wrap_angle Real.pi = -Real.pi ∧
    ¬ (-Real.pi < _wrap_angle Real.pi) ∧
    _wrap_angle (-(2 * Real.pi)) = -(2 * Real.pi) ∧
    ¬ (-Real.pi < _wrap_angle (-(2 * Real.pi))) := by
  have hπ := Real.pi_pos
  have hτ : TAU ≠ 0 := by simp only [TAU]; positivity
  have h1 : _wrap_angle Real.pi = -Real.pi := by
    have hx : (Real.pi + Real.pi) / TAU = 1 := by
      rw [div_eq_one_iff_eq hτ]
      simp only [TAU]
      ring
    have hrem : rustRem (Real.pi + Real.pi) TAU = 0 := by
      simp only [rustRem, hx, rustTrunc]
      rw [if_pos (by norm_num : (0:ℝ) ≤ 1), Int.floor_one]
      simp only [TAU]
      push_cast
      ring
    simp only [_wrap_angle, hrem]
    ring
  have h2 : _wrap_angle (-(2 * Real.pi)) = -(2 * Real.pi) := by
    have hx : (-(2 * Real.pi) + Real.pi) / TAU = -(1 / 2) := by
      rw [div_eq_iff hτ]
      simp only [TAU]
      ring
    have hc : ⌈(-(1 / 2) : ℝ)⌉ = 0 := by
      rw [Int.ceil_eq_zero_iff]
      constructor <;> norm_num
    have hrem : rustRem (-(2 * Real.pi) + Real.pi) TAU = -Real.pi := by
      simp only [rustRem, hx, rustTrunc]
      rw [if_neg (by norm_num : ¬ (0:ℝ) ≤ -(1 / 2)), hc]
      push_cast
      ring
    simp only [_wrap_angle, hrem]
    ring
  refine ⟨h1, by rw [h1]; exact lt_irrefl _, h2, by rw [h2]; push_neg; linarith⟩

/-- C7 (amended): `_wrap_angle a` is always congruent to `a` modulo `2π`, and
whenever `a ≥ -π` the result lies in the half-open interval `[-π, π)`;
inputs below `-π` are not brought into range. -/
theorem wrap_angle_spec (a : ℝ) :
    (∃ k : ℤ, _wrap_angle a = a + k * TAU) ∧
    (-Real.pi ≤ a → -Real.pi ≤ _wrap_angle a ∧ _wrap_angle a < Real.pi) := by
  have hπ := Real.pi_pos
  have hτ : (0 : ℝ) < TAU := by simp [TAU]; positivity
  constructor
  · exact ⟨-rustTrunc ((a + Real.pi) / TAU), by
      simp only [_wrap_angle, rustRem]
      push_cast
      ring⟩
  · intro ha
    have hx : (0 : ℝ) ≤ (a + Real.pi) / TAU := div_nonneg (by linarith) hτ.le
    have htr : rustTrunc ((a + Real.pi) / TAU) = ⌊(a + Real.pi) / TAU⌋ := by
      simp only [rustTrunc, if_pos hx]
    have hfr : rustRem (a + Real.pi) TAU = TAU * Int.fract ((a + Real.pi) / TAU) := by
      rw [rustRem, htr, Int.fract]
      field_simp
    have h0 : 0 ≤ Int.fract ((a + Real.pi) / TAU) := Int.fract_nonneg _
    have h1 : Int.fract ((a + Real.pi) / TAU) < 1 := Int.fract_lt_one _
    have key : _wrap_angle a = TAU * Int.fract ((a + Real.pi) / TAU) - Real.pi := by
      rw [_wrap_angle, hfr]
    have hTAU : TAU = 2 * Real.pi := rfl
    constructor
    · rw [key]
      nlinarith
    · rw [key]
      nlinarith [hTAU, mul_lt_mul_of_pos_left h1 hτ]

/-- C7 witness at `a = 0`. -/
theorem wrap_angle_spec_witness :
    (∃ k : ℤ, _wrap_angle 0 = 0 + k * TAU) ∧
    (-Real.pi ≤ _wrap_angle 0 ∧ _wrap_angle 0 < Real.pi) := by
  have hπ := Real.pi_pos
  exact ⟨(wrap_angle_spec 0).1, (wrap_angle_spec 0).2 (by linarith)⟩

/-! ## C5: locked joints -/

/-- C5: if `child.min_rotation = child.max_rotation = k`, the constrained
attach step always succeeds and sets `child.rotation` to exactly
`parent.rotation + k`, regardless of the child's prior state. -/
theorem locked_joint_rotation (parent child : Node) (k : ℝ)
    (hmin : child.min_rotation = k) (hmax : child.max_rotation = k) :
    ∃ c2, attach_node_rotations parent child = some c2 ∧
      c2.rotation = parent.rotation + k := by
  exact ⟨_, anr_locked parent child k hmin hmax, rfl⟩

/-- C5 witness: a concrete locked child. -/
theorem locked_joint_rotation_witness :
    ∃ c2, attach_node_rotations (Node.new 1) (Node.locked 3 2) = some c2 ∧
      c2.rotation = (Node.new 1).rotation + 2 :=
  locked_joint_rotation (Node.new 1) (Node.locked 3 2) 2 rfl rfl

/-! ## C6: too-short fabrik chains -/

/-- C6: `fabrik` on a chain of fewer than 3 nodes returns `false`, logs the
invalid-count warning, and leaves the store unchanged. -/
theorem fabrik_short (m : NodeManager) (ik : InverseKinematic)
    (h : ik.nodes.length < 3) :
    fabrik m ik = (some (false, m), [invalidCountMsg ik.nodes.length]) := by
  simp only [fabrik, if_pos h]

/-- C6 witness: a two-node chain over the empty store. -/
theorem fabrik_short_witness :
    fabrik NodeManager.new shortIK = (some (false, NodeManager.new), [invalidCountMsg 2]) :=
  fabrik_short NodeManager.new shortIK (by norm_num [shortIK])

/-! ## C10 counterexample -/

/-- C10 counterexample: the `angles` preset performs no validation, so
`Node.angles 1 2 1` violates `min_rotation ≤ max_rotation`. -/
theorem angles_preset_counterexample :
    ¬ ((Node.angles 1 2 1).min_rotation ≤ (Node.angles 1 2 1).max_rotation) := by
  norm_num [Node.angles, Node.mkDefault]

/-! ## Field-preservation machinery -/

theorem fieldsEq_rfl (a : Node) : FieldsEq a a := ⟨rfl, rfl, rfl⟩

theorem fieldsEq_trans {a b c : Node} (h1 : FieldsEq a b) (h2 : FieldsEq b c) :
    FieldsEq a c :=
  ⟨h1.1.trans h2.1, h1.2.1.trans h2.2.1, h1.2.2.trans h2.2.2⟩

theorem anr_fields {p c c2 : Node} (h : attach_node_rotations p c = some c2) :
    FieldsEq c2 c := by
  simp only [attach_node_rotations] at h
  split at h
  · exact absurd h (by simp)
  · cases h
    exact ⟨rfl, rfl, rfl⟩

theorem attach_node_fields (p c : Node) : FieldsEq (attach_node p c) c :=
  ⟨rfl, rfl, rfl⟩

theorem fkChain_fields :
    ∀ (l : List Node) (p : Node) (l2 : List Node),
      fkChain p l = some l2 → List.Forall₂ FieldsEq l2 l := by
  intro l
  induction l with
  | nil =>
      intro p l2 h
      simp only [fkChain] at h
      cases h
      exact .nil
  | cons c rest ih =>
      intro p l2 h
      simp only [fkChain] at h
      cases hanr : attach_node_rotations p c with
      | none => simp only [hanr] at h; exact Option.noConfusion h
      | some c2 =>
          simp only [hanr] at h
          cases hrest : fkChain c2 rest with
          | none => simp only [hrest] at h; exact Option.noConfusion h
          | some rest2 =>
              simp only [hrest, Option.some.injEq] at h
              rw [← h]
              exact .cons (anr_fields hanr) (ih c2 rest2 hrest)

theorem backChain_fields :
    ∀ (l : List Node) (p : Node), List.Forall₂ FieldsEq (backChain p l) l := by
  intro l
  induction l with
  | nil => intro p; exact .nil
  | cons c rest ih =>
      intro p
      exact .cons (attach_node_fields p c) (ih (attach_node p c))

theorem forall₂_fields_refl : ∀ (l : List Node), List.Forall₂ FieldsEq l l := by
  intro l
  induction l with
  | nil => exact .nil
  | cons a l ih => exact .cons (fieldsEq_rfl a) ih

theorem forall₂_fields_trans :
    ∀ {a b : List Node}, List.Forall₂ FieldsEq a b →
      ∀ {c : List Node}, List.Forall₂ FieldsEq b c → List.Forall₂ FieldsEq a c := by
  intro a b h1
  induction h1 with
  | nil =>
      intro c h2
      cases h2
      exact .nil
  | cons hab h1' ih =>
      intro c h2
      cases h2 with
      | cons hbc h2' => exact .cons (fieldsEq_trans hab hbc) (ih h2')

theorem fabrikCycle_fields {t a : Vec2} {ρ : ℝ} {ns ns2 : List Node}
    (h : fabrikCycle t a ρ ns = some ns2) : List.Forall₂ FieldsEq ns2 ns := by
  rcases hr : ns.reverse with _ | ⟨tl, rest⟩
  · simp only [fabrikCycle, hr] at h
    cases h
    rw [List.reverse_eq_nil_iff] at hr
    rw [hr]
    exact .nil
  · simp only [fabrikCycle, hr] at h
    have hns : ns = (tl :: rest).reverse := by
      rw [← hr, List.reverse_reverse]
    have hback : List.Forall₂ FieldsEq
        ({ tl with pos := t } :: backChain { tl with pos := t } rest) (tl :: rest) :=
      .cons ⟨rfl, rfl, rfl⟩ (backChain_fields rest _)
    rcases hrev : ({ tl with pos := t } :: backChain { tl with pos := t } rest).reverse
      with _ | ⟨hh, tt⟩
    · exact absurd hrev (by simp)
    · rw [hrev] at h
      cases hfk : fkChain { hh with pos := a, rotation := ρ } tt with
      | none => simp only [hfk] at h; exact Option.noConfusion h
      | some t2 =>
          simp only [hfk, Option.some.injEq] at h
          rw [← h]
          have hrevall : List.Forall₂ FieldsEq (hh :: tt) ns := by
            rw [hns, ← hrev]
            exact List.forall₂_reverse_iff.mpr hback
          refine forall₂_fields_trans (.cons ?_ (fkChain_fields tt _ t2 hfk)) hrevall
          exact ⟨rfl, rfl, rfl⟩

theorem fabrikLoop_fields :
    ∀ (k : ℕ) {t a : Vec2} {ρ : ℝ} {ns : List Node} {b : Bool} {ns2 : List Node},
      fabrikLoop t a ρ k ns = some (b, ns2) → List.Forall₂ FieldsEq ns2 ns := by
  intro k
  induction k with
  | zero =>
      intro t a ρ ns b ns2 h
      simp only [fabrikLoop] at h
      cases h
      exact forall₂_fields_refl ns
  | succ k ih =>
      intro t a ρ ns b ns2 h
      simp only [fabrikLoop] at h
      split at h
      · exact absurd h (by simp)
      · rename_i nsc hc
        split at h
        · cases h
          exact fabrikCycle_fields hc
        · exact forall₂_fields_trans (ih h) (fabrikCycle_fields hc)

/-! ## Write-back and lookup machinery -/

theorem foldl_update_not_mem :
    ∀ (ps : List (NodeID × Node)) (f : NodeID → Option Node) (id : NodeID),
      (∀ p ∈ ps, p.1 ≠ id) →
      ps.foldl (fun (g : NodeID → Option Node) (p : NodeID × Node) =>
        Function.update g p.1 (some p.2)) f id = f id := by
  intro ps
  induction ps with
  | nil => intro f id _; rfl
  | cons p ps ih =>
      intro f id h
      simp only [List.foldl_cons]
      rw [ih _ _ (fun q hq => h q (List.mem_cons_of_mem _ hq))]
      exact Function.update_noteq (fun he => h p (List.mem_cons_self _ _) he.symm) _ _

theorem writeBack_not_mem {m : NodeManager} {ids : List NodeID} {ns : List Node}
    {id : NodeID} (h : id ∉ ids) : (writeBack m ids ns).nodes id = m.nodes id := by
  apply foldl_update_not_mem
  intro p hp he
  obtain ⟨a, b⟩ := p
  exact h (he ▸ (List.of_mem_zip hp).1)

theorem foldl_update_get :
    ∀ (ids : List NodeID) (ns : List Node) (f : NodeID → Option Node),
      ids.Nodup → ids.length = ns.length →
      ∀ (i : ℕ) (h1 : i < ids.length) (h2 : i < ns.length),
        (ids.zip ns).foldl (fun (g : NodeID → Option Node) (p : NodeID × Node) =>
          Function.update g p.1 (some p.2)) f
          (ids.get ⟨i, h1⟩) = some (ns.get ⟨i, h2⟩) := by
  intro ids
  induction ids with
  | nil =>
      intro ns f _ _ i h1
      exact absurd h1 (by simp)
  | cons id ids ih =>
      intro ns f hnd hlen i h1 h2
      cases ns with
      | nil => exact absurd hlen (by simp)
      | cons n ns =>
          simp only [List.zip_cons_cons, List.foldl_cons]
          obtain ⟨hid, hnd'⟩ := List.nodup_cons.mp hnd
          cases i with
          | zero =>
              show (ids.zip ns).foldl _ (Function.update f id (some n)) id = some n
              rw [foldl_update_not_mem]
              · exact Function.update_same _ _ _
              · intro p hp he
                obtain ⟨a, b⟩ := p
                exact hid (he ▸ (List.of_mem_zip hp).1)
          | succ j =>
              exact ih ns (Function.update f id (some n)) hnd'
                (by simpa using hlen) j (by simpa using h1) (by simpa using h2)

theorem filterMap_all_some {f : NodeID → Option Node} :
    ∀ (l : List NodeID), (∀ id ∈ l, (f id).isSome) →
      List.Forall₂ (fun id n => f id = some n) l (l.filterMap f) := by
  intro l
  induction l with
  | nil => intro _; simp only [List.filterMap_nil]; exact .nil
  | cons id l ih =>
      intro h
      obtain ⟨n, hn⟩ := Option.isSome_iff_exists.mp (h id (List.mem_cons_self _ _))
      simp only [List.filterMap_cons, hn]
      exact .cons hn (ih fun x hx => h x (List.mem_cons_of_mem _ hx))

theorem filterMap_full {f : NodeID → Option Node} :
    ∀ (l : List NodeID), (l.filterMap f).length = l.length →
      ∀ x ∈ l, (f x).isSome := by
  intro l
  induction l with
  | nil => intro _ x hx; cases hx
  | cons a l ih =>
      intro hlen x hx
      cases hfa : f a with
      | none =>
          exfalso
          rw [List.filterMap_cons, hfa] at hlen
          have := List.length_filterMap_le f l
          simp only [List.length_cons] at hlen
          omega
      | some b =>
          rw [List.filterMap_cons, hfa] at hlen
          simp only [List.length_cons] at hlen
          rcases List.mem_cons.mp hx with hxa | hxl
          · rw [hxa, hfa]; rfl
          · exact ih (by omega) x hxl

theorem gnm_success {m : NodeManager} {ids : List NodeID}
    (hnd : ids.Nodup) (hall : ∀ id ∈ ids, (m.nodes id).isSome) :
    m.get_nodes_mut ids = (ids.filterMap m.nodes, []) := by
  have hded : ids.dedup = ids := List.dedup_eq_self.mpr hnd
  have hlen : (ids.filterMap m.nodes).length = ids.length :=
    (filterMap_all_some ids hall).length_eq.symm
  rw [NodeManager.get_nodes_mut, hded, hlen, if_neg (lt_irrefl _)]

theorem gnm_nonempty {m : NodeManager} {ids : List NodeID} {ns : List Node}
    (h : (m.get_nodes_mut ids).1 = ns) (hne : ns ≠ []) :
    ids.Nodup ∧ (∀ id ∈ ids, (m.nodes id).isSome) ∧ ns = ids.filterMap m.nodes := by
  by_cases hc : (ids.dedup.filterMap m.nodes).length < ids.length
  · rw [NodeManager.get_nodes_mut, if_pos hc] at h
    exact absurd h.symm hne
  · rw [NodeManager.get_nodes_mut, if_neg hc] at h
    push_neg at hc
    have hle1 : (ids.dedup.filterMap m.nodes).length ≤ ids.dedup.length :=
      List.length_filterMap_le _ _
    have hle2 : ids.dedup.length ≤ ids.length := (List.dedup_sublist ids).length_le
    have he1 : ids.dedup.length = ids.length := le_antisymm hle2 (le_trans hc hle1)
    have hded : ids.dedup = ids := (List.dedup_sublist ids).eq_of_length he1
    have he2 : (ids.dedup.filterMap m.nodes).length = ids.dedup.length :=
      le_antisymm hle1 (by rw [he1]; exact hc)
    have hall : ∀ x ∈ ids, (m.nodes x).isSome := by
      intro x hx
      exact filterMap_full ids.dedup he2 x (by rw [hded]; exact hx)
    exact ⟨by rw [← hded]; exact List.nodup_dedup ids, hall, h.symm⟩

theorem frameProps_refl (m : NodeManager) (ids : List NodeID) : frameProps m ids m := by
  refine ⟨rfl, fun _ _ => rfl, fun _ => rfl, fun id n n2 h1 h2 => ?_⟩
  rw [h1] at h2
  cases h2
  exact fieldsEq_rfl n

theorem frame_of_writeBack {m : NodeManager} {ids : List NodeID} {ns2 : List Node}
    (hnd : ids.Nodup) (hall : ∀ id ∈ ids, (m.nodes id).isSome)
    (hf : List.Forall₂ FieldsEq ns2 (ids.filterMap m.nodes)) :
    frameProps m ids (writeBack m ids ns2) := by
  have hrel := filterMap_all_some ids hall
  have hlen1 : ids.length = (ids.filterMap m.nodes).length := hrel.length_eq
  have hlen2 : ns2.length = (ids.filterMap m.nodes).length := hf.length_eq
  have hlen : ids.length = ns2.length := by omega
  refine ⟨rfl, fun id h => writeBack_not_mem h, ?_, ?_⟩
  · intro id
    by_cases hid : id ∈ ids
    · obtain ⟨⟨i, hi⟩, hgi⟩ := List.mem_iff_get.mp hid
      have hw := foldl_update_get ids ns2 m.nodes hnd hlen i hi (by omega)
      rw [hgi] at hw
      have hw' : (writeBack m ids ns2).nodes id = some (ns2.get ⟨i, by omega⟩) := hw
      rw [hw']
      obtain ⟨n, hn⟩ := Option.isSome_iff_exists.mp (hall id hid)
      rw [hn]
      rfl
    · rw [writeBack_not_mem hid]
  · intro id n n2 h1 h2
    by_cases hid : id ∈ ids
    · obtain ⟨⟨i, hi⟩, hgi⟩ := List.mem_iff_get.mp hid
      have hw := foldl_update_get ids ns2 m.nodes hnd hlen i hi (by omega)
      rw [hgi] at hw
      have hw' : (writeBack m ids ns2).nodes id = some (ns2.get ⟨i, by omega⟩) := hw
      rw [hw'] at h2
      cases h2
      have hmap := (List.forall₂_iff_get.mp hrel).2 i hi (by omega)
      rw [hgi, h1] at hmap
      cases hmap
      exact (List.forall₂_iff_get.mp hf).2 i (by omega) (by omega)
    · rw [writeBack_not_mem hid, h1] at h2
      cases h2
      exact fieldsEq_rfl n

theorem fabrikLoop_zero (t a : Vec2) (ρ : ℝ) (ns : List Node) :
    fabrikLoop t a ρ 0 ns = some (false, ns) := rfl

theorem fabrikLoop_succ (t a : Vec2) (ρ : ℝ) (k : ℕ) (ns : List Node) :
    fabrikLoop t a ρ (k + 1) ns =
      match fabrikCycle t a ρ ns with
      | none => none
      | some ns2 =>
          if ((lastD ns2).pos - t).length < 1 then some (true, ns2)
          else fabrikLoop t a ρ k ns2 := rfl

theorem writeBack_head {m : NodeManager} {id0 : NodeID} {ids : List NodeID}
    {n : Node} {ns : List Node} (hnotin : id0 ∉ ids) :
    (writeBack m (id0 :: ids) (n :: ns)).nodes id0 = some n := by
  show ((id0, n) :: ids.zip ns).foldl
      (fun (g : NodeID → Option Node) (p : NodeID × Node) =>
        Function.update g p.1 (some p.2)) m.nodes id0 = some n
  rw [List.foldl_cons, foldl_update_not_mem]
  · exact Function.update_same _ _ _
  · intro p hp he
    obtain ⟨a, b⟩ := p
    exact hnotin (he ▸ (List.of_mem_zip hp).1)

/-! ## C9: frame conditions of the solvers -/

theorem process_fk_frame {m : NodeManager} {fk : ForwardKinematic} {m2 : NodeManager}
    (h : (process_fk m fk).1 = some m2) : frameProps m fk.nodes m2 := by
  by_cases hlen : fk.nodes.length < 2
  · simp only [process_fk, if_pos hlen] at h
    cases h
    exact frameProps_refl m fk.nodes
  · simp only [process_fk, if_neg hlen] at h
    rcases hns : (m.get_nodes_mut fk.nodes).1 with _ | ⟨h0, t0⟩
    · simp only [hns] at h
      exact Option.noConfusion h
    · simp only [hns] at h
      obtain ⟨hnd, hall, hfm⟩ := gnm_nonempty hns (List.cons_ne_nil _ _)
      cases hfk : fkChain h0 t0 with
      | none =>
          simp only [hfk] at h
          exact Option.noConfusion h
      | some t2 =>
          simp only [hfk, Option.some.injEq] at h
          rw [← h]
          apply frame_of_writeBack hnd hall
          rw [← hfm]
          exact .cons (fieldsEq_rfl h0) (fkChain_fields t0 h0 t2 hfk)

theorem fabrik_frame {m : NodeManager} {ik : InverseKinematic} {b : Bool}
    {m2 : NodeManager} (h : (fabrik m ik).1 = some (b, m2)) :
    frameProps m ik.nodes m2 := by
  by_cases hlen : ik.nodes.length < 3
  · simp only [fabrik, if_pos hlen, Option.some.injEq, Prod.mk.injEq] at h
    rw [← h.2]
    exact frameProps_refl m ik.nodes
  · simp only [fabrik, if_neg hlen] at h
    rcases hns : (m.get_nodes_mut ik.nodes).1 with _ | ⟨h0, t0⟩
    · simp only [hns] at h
      exact Option.noConfusion h
    · simp only [hns] at h
      obtain ⟨hnd, hall, hfm⟩ := gnm_nonempty hns (List.cons_ne_nil _ _)
      rcases hanc : ik.anchor with _ | a
      · simp only [hanc] at h
        cases hloop : fabrikLoop ik.target h0.pos h0.rotation ik.cycles (h0 :: t0) with
        | none =>
            simp only [hloop] at h
            exact Option.noConfusion h
        | some p =>
            obtain ⟨bs, ns2⟩ := p
            simp only [hloop, Option.some.injEq, Prod.mk.injEq] at h
            rw [← h.2]
            apply frame_of_writeBack hnd hall
            rw [← hfm]
            exact fabrikLoop_fields ik.cycles hloop
      · simp only [hanc] at h
        cases hloop : fabrikLoop ik.target a h0.rotation ik.cycles (h0 :: t0) with
        | none =>
            simp only [hloop] at h
            exact Option.noConfusion h
        | some p =>
            obtain ⟨bs, ns2⟩ := p
            simp only [hloop, Option.some.injEq, Prod.mk.injEq] at h
            rw [← h.2]
            apply frame_of_writeBack hnd hall
            rw [← hfm]
            exact fabrikLoop_fields ik.cycles hloop

/-- C9: both solvers only ever mutate `pos` and `rotation` of the chain's own
nodes; every other node, the id set, the id counter, and the `radius` /
`min_rotation` / `max_rotation` fields of all nodes are left unchanged
(for every call that completes without panicking). -/
theorem solver_frame :
    (∀ (m : NodeManager) (fk : ForwardKinematic) (m2 : NodeManager),
      (process_fk m fk).1 = some m2 → frameProps m fk.nodes m2) ∧
    (∀ (m : NodeManager) (ik : InverseKinematic) (b : Bool) (m2 : NodeManager),
      (fabrik m ik).1 = some (b, m2) → frameProps m ik.nodes m2) :=
  ⟨fun _ _ _ h => process_fk_frame h, fun _ _ _ _ h => fabrik_frame h⟩

/-! ## C10: the rotation-limit invariant -/

theorem invStore_of_frame {m m2 : NodeManager} {ids : List NodeID}
    (hInv : InvStore m) (hf : frameProps m ids m2) : InvStore m2 := by
  intro id n2 h2
  obtain ⟨-, -, hsome, hfields⟩ := hf
  have hs : (m.nodes id).isSome := by
    rw [← hsome id, h2]
    rfl
  obtain ⟨n, hn⟩ := Option.isSome_iff_exists.mp hs
  obtain ⟨-, hmin, hmax⟩ := hfields id n n2 hn h2
  rw [hmin, hmax]
  exact hInv id n hn

/-- C10 (amended): the presets `new`, `locked`, `unlocked` and `angle` always
produce nodes with `min_rotation ≤ max_rotation`; `angles` guarantees it only
when called with `min ≤ max` (it performs no validation); the invariant is
preserved store-wide by `insert` (of a node satisfying it) and by every
completing `process_fk` / `fabrik` call. -/
theorem node_invariant :
    (∀ r, (Node.new r).min_rotation ≤ (Node.new r).max_rotation) ∧
    (∀ r k, (Node.locked r k).min_rotation ≤ (Node.locked r k).max_rotation) ∧
    (∀ r, (Node.unlocked r).min_rotation ≤ (Node.unlocked r).max_rotation) ∧
    (∀ r a, (Node.angle r a).min_rotation ≤ (Node.angle r a).max_rotation) ∧
    (∀ r mn mx, mn ≤ mx →
      (Node.angles r mn mx).min_rotation ≤ (Node.angles r mn mx).max_rotation) ∧
    (∀ (m : NodeManager) (node : Node), InvStore m →
      node.min_rotation ≤ node.max_rotation → InvStore (m.insert node).2) ∧
    (∀ (m : NodeManager) (fk : ForwardKinematic) (m2 : NodeManager), InvStore m →
      (process_fk m fk).1 = some m2 → InvStore m2) ∧
    (∀ (m : NodeManager) (ik : InverseKinematic) (b : Bool) (m2 : NodeManager),
      InvStore m → (fabrik m ik).1 = some (b, m2) → InvStore m2) := by
  refine ⟨?_, ?_, ?_, ?_, ?_, ?_, ?_, ?_⟩
  · intro r
    norm_num [Node.new, Node.mkDefault, Node.DEFAULT_ANGLE]
  · intro r k
    simp [Node.locked, Node.mkDefault]
  · intro r
    have := Real.pi_pos
    simp only [Node.unlocked, TAU]
    linarith
  · intro r a
    have := abs_nonneg a
    simp only [Node.angle]
    linarith
  · intro r mn mx h
    simpa [Node.angles] using h
  · intro m node hInv hnode id n hn
    simp only [NodeManager.insert] at hn
    by_cases hid : id = m.current_id
    · rw [hid, Function.update_same] at hn
      cases hn
      exact hnode
    · rw [Function.update_noteq hid] at hn
      exact hInv id n hn
  · intro m fk m2 hInv h
    exact invStore_of_frame hInv (process_fk_frame h)
  · intro m ik b m2 hInv h
    exact invStore_of_frame hInv (fabrik_frame h)

/-- C10 witness: an `angles` node with `min ≤ max`, and an insert into the
empty store. -/
theorem node_invariant_witness :
    ((Node.angles 2 (-1) 3).min_rotation ≤ (Node.angles 2 (-1) 3).max_rotation) ∧
    InvStore (NodeManager.new.insert (Node.new 5)).2 := by
  obtain ⟨hnew, -, -, -, hangs, hins, -, -⟩ := node_invariant
  exact ⟨hangs 2 (-1) 3 (by norm_num),
    hins NodeManager.new (Node.new 5) (fun id n hn => Option.noConfusion hn) (hnew 5)⟩

/-! ## C4: root repin -/

theorem fabrikCycle_shape {t a : Vec2} {ρ : ℝ} {ns ns2 : List Node}
    (hne : ns ≠ []) (h : fabrikCycle t a ρ ns = some ns2) :
    ∃ h2 t2, ns2 = h2 :: t2 ∧ h2.pos = a ∧ h2.rotation = ρ := by
  rcases hr : ns.reverse with _ | ⟨tl, rest⟩
  · exact absurd (List.reverse_eq_nil_iff.mp hr) hne
  · simp only [fabrikCycle, hr] at h
    rcases hrev : ({ tl with pos := t } :: backChain { tl with pos := t } rest).reverse
      with _ | ⟨hh, tt⟩
    · exact absurd hrev (by simp)
    · rw [hrev] at h
      cases hfk : fkChain { hh with pos := a, rotation := ρ } tt with
      | none =>
          simp only [hfk] at h
          exact Option.noConfusion h
      | some t2 =>
          simp only [hfk, Option.some.injEq] at h
          exact ⟨_, t2, h.symm, rfl, rfl⟩

theorem fabrikLoop_shape :
    ∀ (k : ℕ) {t a : Vec2} {ρ : ℝ} {ns : List Node} {b : Bool} {ns2 : List Node},
      ns ≠ [] → fabrikLoop t a ρ (k + 1) ns = some (b, ns2) →
      ∃ h2 t2, ns2 = h2 :: t2 ∧ h2.pos = a ∧ h2.rotation = ρ := by
  intro k
  induction k with
  | zero =>
      intro t a ρ ns b ns2 hne h
      rw [fabrikLoop_succ] at h
      cases hc : fabrikCycle t a ρ ns with
      | none =>
          simp only [hc] at h
          exact Option.noConfusion h
      | some nsc =>
          simp only [hc] at h
          split at h
          · cases h
            exact fabrikCycle_shape hne hc
          · rw [fabrikLoop_zero] at h
            cases h
            exact fabrikCycle_shape hne hc
  | succ k ih =>
      intro t a ρ ns b ns2 hne h
      rw [fabrikLoop_succ] at h
      cases hc : fabrikCycle t a ρ ns with
      | none =>
          simp only [hc] at h
          exact Option.noConfusion h
      | some nsc =>
          simp only [hc] at h
          split at h
          · cases h
            exact fabrikCycle_shape hne hc
          · obtain ⟨hh2, tt2, hee, -, -⟩ := fabrikCycle_shape hne hc
            exact ih (by rw [hee]; exact List.cons_ne_nil _ _) h

/-- C4: for a completing `fabrik` call on a chain of length ≥ 3 with at least
one cycle, the root node ends with its entry rotation, pinned at the anchor
(or at its entry position when the anchor is `None`). -/
theorem fabrik_root_repin {m : NodeManager} {ik : InverseKinematic} {b : Bool}
    {m2 : NodeManager} {id0 : NodeID} {rest : List NodeID} {n0 : Node}
    (hids : ik.nodes = id0 :: rest) (hlen : 3 ≤ ik.nodes.length)
    (hcyc : 1 ≤ ik.cycles) (h : (fabrik m ik).1 = some (b, m2))
    (hn0 : m.nodes id0 = some n0) :
    ∃ n02, m2.nodes id0 = some n02 ∧ n02.rotation = n0.rotation ∧
      n02.pos = (match ik.anchor with | some a => a | none => n0.pos) := by
  simp only [fabrik, if_neg (by omega : ¬ ik.nodes.length < 3)] at h
  rcases hns : (m.get_nodes_mut ik.nodes).1 with _ | ⟨h0, t0⟩
  · simp only [hns] at h
    exact Option.noConfusion h
  · simp only [hns] at h
    obtain ⟨hnd, hall, hfm⟩ := gnm_nonempty hns (List.cons_ne_nil _ _)
    rw [hids] at hfm
    simp only [List.filterMap_cons, hn0] at hfm
    obtain ⟨hh0, ht0⟩ := List.cons.injEq .. ▸ hfm
    obtain ⟨cyc, hcyc2⟩ : ∃ c, ik.cycles = c + 1 := ⟨ik.cycles - 1, by omega⟩
    rw [hcyc2] at h
    have hnotin : id0 ∉ rest := (List.nodup_cons.mp (hids ▸ hnd)).1
    rcases hanc : ik.anchor with _ | a
    · simp only [hanc] at h
      cases hloop : fabrikLoop ik.target h0.pos h0.rotation (cyc + 1) (h0 :: t0) with
      | none =>
          simp only [hloop] at h
          exact Option.noConfusion h
      | some p =>
          obtain ⟨bs, ns2⟩ := p
          simp only [hloop, Option.some.injEq, Prod.mk.injEq] at h
          obtain ⟨hh2, tt2, hns2, hpos, hrot⟩ :=
            fabrikLoop_shape cyc (List.cons_ne_nil _ _) hloop
          refine ⟨hh2, ?_, ?_, ?_⟩
          · rw [← h.2, hns2, hids]
            exact writeBack_head hnotin
          · rw [hrot, hh0]
          · rw [hpos, hh0]
    · simp only [hanc] at h
      cases hloop : fabrikLoop ik.target a h0.rotation (cyc + 1) (h0 :: t0) with
      | none =>
          simp only [hloop] at h
          exact Option.noConfusion h
      | some p =>
          obtain ⟨bs, ns2⟩ := p
          simp only [hloop, Option.some.injEq, Prod.mk.injEq] at h
          obtain ⟨hh2, tt2, hns2, hpos, hrot⟩ :=
            fabrikLoop_shape cyc (List.cons_ne_nil _ _) hloop
          refine ⟨hh2, ?_, ?_, ?_⟩
          · rw [← h.2, hns2, hids]
            exact writeBack_head hnotin
          · rw [hrot, hh0]
          · rw [hpos]

/-! ## C1: dangling NodeIDs make the solvers panic -/

theorem gnm_dangling3 : soloM.get_nodes_mut [0, 1, 2] = ([], [missingNodesMsg]) := by
  have hd : ([0, 1, 2] : List NodeID).dedup = [0, 1, 2] := by decide
  rw [NodeManager.get_nodes_mut, hd]
  norm_num [soloM, List.filterMap_cons]

theorem gnm_dangling2 : soloM.get_nodes_mut [0, 1] = ([], [missingNodesMsg]) := by
  have hd : ([0, 1] : List NodeID).dedup = [0, 1] := by decide
  rw [NodeManager.get_nodes_mut, hd]
  norm_num [soloM, List.filterMap_cons]

/-- C1: on a chain of valid length that names a NodeID absent from the store,
`get_nodes_mut` does log its warning, but both `fabrik` and `process_fk` then
panic (modelled by `none`: `fabrik` underflows `nodes.len() - 1` and indexes
`nodes[0]` of an empty vector; `process_fk` calls `split_at_mut(1)` on the
empty vector) instead of no-opping and returning a failure. -/
theorem dangling_id_panics :
    (fabrik soloM danglingIK).1 = none ∧
    (fabrik soloM danglingIK).2 = [missingNodesMsg] ∧
    (process_fk soloM danglingFK).1 = none ∧
    (process_fk soloM danglingFK).2 = [missingNodesMsg] := by
  have hf : fabrik soloM danglingIK = (none, [missingNodesMsg]) := by
    simp [fabrik, danglingIK, gnm_dangling3]
  have hp : process_fk soloM danglingFK = (none, [missingNodesMsg]) := by
    simp [process_fk, danglingFK, gnm_dangling2]
  rw [hf, hp]
  exact ⟨rfl, rfl, rfl, rfl⟩

/-! ## C3: the two-node forward chain -/

theorem angle_diff_self (a : ℝ) : angle_diff a a = 0 := by
  have hπ := Real.pi_pos
  simp only [angle_diff, sub_self]
  rw [if_neg (by linarith), if_neg (by linarith)]

theorem dist_from_angle (p : Vec2) (θ r : ℝ) (h : 0 ≤ r) :
    ((p - (Vec2.from_angle θ).scale r) - p).length = r := by
  obtain ⟨px, py⟩ := p
  have hsc : Real.sin θ ^ 2 + Real.cos θ ^ 2 = 1 := Real.sin_sq_add_cos_sq θ
  have hsq : (px - Real.cos θ * r - px) ^ 2 + (py - Real.sin θ * r - py) ^ 2 = r ^ 2 := by
    nlinarith [hsc]
  simp only [Vec2.from_angle, Vec2.scale_mk, Vec2.sub_mk, Vec2.length]
  rw [hsq]
  exact Real.sqrt_sq h

/-- C3 (amended): for a ForwardChain `[A, B]` with both ids present and
distinct and `B.min_rotation ≤ B.max_rotation`, `process_fk` completes,
leaves `A` unchanged, and sets `B.rotation = r_b` and
`B.pos = A.pos - from_angle(r_b) * A.radius` (distance exactly `A.radius`
from `A.pos`, in the direction opposite to `r_b`), where `r_b` is built from
the angle of the vector from the child's position to the parent's position. -/
theorem fk_pair (m : NodeManager) (fk : ForwardKinematic) (idA idB : NodeID) (A B : Node)
    (hids : fk.nodes = [idA, idB]) (hne : idA ≠ idB)
    (hA : m.nodes idA = some A) (hB : m.nodes idB = some B)
    (hminmax : B.min_rotation ≤ B.max_rotation) (hrad : 0 ≤ A.radius) :
    ∃ m2 B2, (process_fk m fk).1 = some m2 ∧
      m2.nodes idA = some A ∧ m2.nodes idB = some B2 ∧
      B2.rotation = A.rotation +
        min B.max_rotation
          (max (angle_diff ((A.pos - B.pos).to_angle) A.rotation) B.min_rotation) ∧
      B2.pos = A.pos - (Vec2.from_angle B2.rotation).scale A.radius ∧
      (B2.pos - A.pos).length = A.radius ∧
      FieldsEq B2 B := by
  have hnd : ([idA, idB] : List NodeID).Nodup := by simp [hne]
  have hall : ∀ id ∈ ([idA, idB] : List NodeID), (m.nodes id).isSome := by
    intro id hid
    rcases List.mem_cons.mp hid with h1 | h1
    · rw [h1, hA]; rfl
    · rw [List.mem_singleton.mp h1, hB]; rfl
  have hgnm : m.get_nodes_mut [idA, idB] = ([A, B], []) := by
    rw [gnm_success hnd hall]
    simp [List.filterMap_cons, hA, hB]
  have hattach : attach_node_rotations A B =
      some { B with
              rotation := A.rotation +
                min B.max_rotation
                  (max (angle_diff ((A.pos - B.pos).to_angle) A.rotation) B.min_rotation)
              pos := A.pos - (Vec2.from_angle (A.rotation +
                min B.max_rotation
                  (max (angle_diff ((A.pos - B.pos).to_angle) A.rotation)
                    B.min_rotation))).scale A.radius } := by
    simp only [attach_node_rotations, rustClamp, if_pos hminmax]
  have hrun : (process_fk m fk).1 = some (writeBack m [idA, idB]
      [A, { B with
              rotation := A.rotation +
                min B.max_rotation
                  (max (angle_diff ((A.pos - B.pos).to_angle) A.rotation) B.min_rotation)
              pos := A.pos - (Vec2.from_angle (A.rotation +
                min B.max_rotation
                  (max (angle_diff ((A.pos - B.pos).to_angle) A.rotation)
                    B.min_rotation))).scale A.radius }]) := by
    simp only [process_fk, hids]
    norm_num [hgnm, fkChain, hattach]
  refine ⟨_, { B with
              rotation := A.rotation +
                min B.max_rotation
                  (max (angle_diff ((A.pos - B.pos).to_angle) A.rotation) B.min_rotation)
              pos := A.pos - (Vec2.from_angle (A.rotation +
                min B.max_rotation
                  (max (angle_diff ((A.pos - B.pos).to_angle) A.rotation)
                    B.min_rotation))).scale A.radius },
    hrun, ?_, ?_, rfl, rfl, ?_, ⟨rfl, rfl, rfl⟩⟩
  · show (Function.update (Function.update m.nodes idA (some A)) idB _) idA = some A
    rw [Function.update_noteq hne, Function.update_same]
  · exact Function.update_same _ _ _
  · exact dist_from_angle A.pos _ A.radius hrad

/-- C3 witness: the concrete pair store (locked child to the right of the
parent). -/
theorem fk_pair_witness :
    ∃ m2 B2, (process_fk pairM pairFK).1 = some m2 ∧
      m2.nodes 0 = some pairA ∧ m2.nodes 1 = some B2 ∧
      B2.rotation = pairA.rotation +
        min pairB.max_rotation
          (max (angle_diff ((pairA.pos - pairB.pos).to_angle) pairA.rotation)
            pairB.min_rotation) ∧
      B2.pos = pairA.pos - (Vec2.from_angle B2.rotation).scale pairA.radius ∧
      (B2.pos - pairA.pos).length = pairA.radius ∧
      FieldsEq B2 pairB :=
  fk_pair pairM pairFK 0 1 pairA pairB rfl (by decide)
    (by norm_num [pairM]) (by norm_num [pairM])
    (by norm_num [pairB]) (by norm_num [pairA])

theorem attach_pair : attach_node_rotations pairA pairB = some pairB2 := by
  rw [anr_locked pairA pairB 0 rfl rfl]
  norm_num [pairA, pairB, pairB2]

theorem gnm_pair : pairM.get_nodes_mut [0, 1] = ([pairA, pairB], []) := by
  have hall : ∀ id ∈ ([0, 1] : List NodeID), (pairM.nodes id).isSome := by
    intro id hid
    rcases List.mem_cons.mp hid with h1 | h1
    · rw [h1]; rfl
    · rw [List.mem_singleton.mp h1]; rfl
  rw [gnm_success (by decide) hall]
  norm_num [List.filterMap_cons, pairM]

theorem pair_run :
    process_fk pairM pairFK = (some (writeBack pairM [0, 1] [pairA, pairB2]), []) := by
  simp only [process_fk, pairFK]
  norm_num [gnm_pair, fkChain, attach_pair]

/-- C3 counterexample: with the parent at the origin (rotation 0, radius 1)
and a locked child at `(1, 0)`, the claim's reading (raw angle taken parent →
child, child placed in the direction of `r_b`) predicts the child at `(1, 0)`,
but `process_fk` actually places it at `(-1, 0)`. -/
theorem fk_pair_counterexample :
    ∃ m2 B2, (process_fk pairM pairFK).1 = some m2 ∧ m2.nodes 1 = some B2 ∧
      B2.pos = Vec2.mk (-1) 0 ∧
      pairA.pos + (Vec2.from_angle (pairA.rotation +
        min pairB.max_rotation
          (max (angle_diff ((pairB.pos - pairA.pos).to_angle) pairA.rotation)
            pairB.min_rotation))).scale pairA.radius = Vec2.mk 1 0 ∧
      Vec2.mk (-1) 0 ≠ Vec2.mk 1 0 := by
  refine ⟨writeBack pairM [0, 1] [pairA, pairB2], pairB2, by rw [pair_run], ?_, ?_, ?_, ?_⟩
  · show (Function.update (Function.update pairM.nodes 0 (some pairA))
        1 (some pairB2)) 1 = some pairB2
    exact Function.update_same _ _ _
  · norm_num [pairB2]
  · have h1 : pairB.pos - pairA.pos = Vec2.mk 1 0 := by norm_num [pairA, pairB]
    have h0 : pairA.rotation = 0 := rfl
    rw [h1, to_angle_posx 1 one_pos, h0, angle_diff_self]
    norm_num [pairA, pairB]
  · intro hc
    rw [Vec2.mk.injEq] at hc
    norm_num at hc

/-! ## C8: unreachable target on a straight unconstrained chain -/

@[simp]
theorem straightNode_pos (r px ρ : ℝ) : (straightNode r px ρ).pos = ⟨px, 0⟩ := rfl

@[simp]
theorem straightNode_rotation (r px ρ : ℝ) : (straightNode r px ρ).rotation = ρ := rfl

theorem attach_node_x (pr pρ pM pm cr cρ cM cm px cx : ℝ) (h : cx < px) :
    attach_node ⟨pr, ⟨px, 0⟩, pρ, pM, pm⟩ ⟨cr, ⟨cx, 0⟩, cρ, cM, cm⟩ =
      ⟨cr, ⟨px - pr, 0⟩, 0, cM, cm⟩ := by
  simp only [attach_node, Vec2.sub_mk, sub_self]
  rw [to_angle_posx (px - cx) (by linarith)]
  norm_num [Node.mk.injEq, Vec2.mk.injEq]

theorem anr_x (pr pρ pM pm cr cρ px cx : ℝ) (h : px < cx) (hρ : pρ = 0 ∨ pρ = Real.pi) :
    attach_node_rotations ⟨pr, ⟨px, 0⟩, pρ, pM, pm⟩ ⟨cr, ⟨cx, 0⟩, cρ, TAU, -TAU⟩ =
      some ⟨cr, ⟨px + pr, 0⟩, Real.pi, TAU, -TAU⟩ := by
  have hπ := Real.pi_pos
  rcases hρ with hρ0 | hρ0 <;> subst hρ0
  · simp only [attach_node_rotations, Vec2.sub_mk, sub_self]
    rw [to_angle_negx (px - cx) (by linarith), angle_diff_pi_zero,
      rustClamp_unconstrained Real.pi (by simp only [TAU]; linarith)
        (by simp only [TAU]; linarith)]
    norm_num [Node.mk.injEq, Vec2.mk.injEq]
  · simp only [attach_node_rotations, Vec2.sub_mk, sub_self]
    rw [to_angle_negx (px - cx) (by linarith), angle_diff_pi_pi,
      rustClamp_unconstrained 0 (by simp only [TAU]; linarith)
        (by simp only [TAU]; linarith)]
    norm_num [Node.mk.injEq, Vec2.mk.injEq]

theorem cycle_straight (r0 r1 r2 d ρ0 ρ1 ρ2 : ℝ) (h0 : 0 < r0) (h1 : 0 < r1)
    (h2 : 0 < r2) (hd : r0 + r1 + r2 < d) :
    fabrikCycle ⟨d, 0⟩ ⟨0, 0⟩ 0
      [straightNode r0 0 ρ0, straightNode r1 r0 ρ1, straightNode r2 (r0 + r1) ρ2] =
      some [straightNode r0 0 0, straightNode r1 r0 Real.pi,
        straightNode r2 (r0 + r1) Real.pi] := by
  have hb1 : attach_node ⟨r2, ⟨d, 0⟩, ρ2, TAU, -TAU⟩ ⟨r1, ⟨r0, 0⟩, ρ1, TAU, -TAU⟩ =
      ⟨r1, ⟨d - r2, 0⟩, 0, TAU, -TAU⟩ :=
    attach_node_x r2 ρ2 TAU (-TAU) r1 ρ1 TAU (-TAU) d r0 (by linarith)
  have hb2 : attach_node ⟨r1, ⟨d - r2, 0⟩, 0, TAU, -TAU⟩ ⟨r0, ⟨0, 0⟩, ρ0, TAU, -TAU⟩ =
      ⟨r0, ⟨d - r2 - r1, 0⟩, 0, TAU, -TAU⟩ :=
    attach_node_x r1 0 TAU (-TAU) r0 ρ0 TAU (-TAU) (d - r2) 0 (by linarith)
  have hf1 : attach_node_rotations ⟨r0, ⟨0, 0⟩, 0, TAU, -TAU⟩
      ⟨r1, ⟨d - r2, 0⟩, 0, TAU, -TAU⟩ =
      some ⟨r1, ⟨r0, 0⟩, Real.pi, TAU, -TAU⟩ := by
    have := anr_x r0 0 TAU (-TAU) r1 0 0 (d - r2) (by linarith) (Or.inl rfl)
    simpa using this
  have hf2 : attach_node_rotations ⟨r1, ⟨r0, 0⟩, Real.pi, TAU, -TAU⟩
      ⟨r2, ⟨d, 0⟩, ρ2, TAU, -TAU⟩ =
      some ⟨r2, ⟨r0 + r1, 0⟩, Real.pi, TAU, -TAU⟩ :=
    anr_x r1 Real.pi TAU (-TAU) r2 ρ2 r0 d (by linarith) (Or.inr rfl)
  simp only [fabrikCycle, straightNode, List.reverse_cons, List.reverse_nil,
    List.nil_append, List.cons_append, List.singleton_append, backChain, fkChain,
    hb1, hb2, hf1, hf2]

theorem loop_straight (r0 r1 r2 d : ℝ) (h0 : 0 < r0) (h1 : 0 < r1) (h2 : 0 < r2)
    (hd : r0 + r1 + r2 < d) (hd1 : r0 + r1 + 1 ≤ d) :
    ∀ (k : ℕ) (ρ0 ρ1 ρ2 : ℝ),
      ∃ σ0 σ1 σ2, fabrikLoop ⟨d, 0⟩ ⟨0, 0⟩ 0 k
        [straightNode r0 0 ρ0, straightNode r1 r0 ρ1, straightNode r2 (r0 + r1) ρ2] =
        some (false, [straightNode r0 0 σ0, straightNode r1 r0 σ1,
          straightNode r2 (r0 + r1) σ2]) := by
  intro k
  induction k with
  | zero =>
      intro ρ0 ρ1 ρ2
      exact ⟨ρ0, ρ1, ρ2, fabrikLoop_zero _ _ _ _⟩
  | succ k ih =>
      intro ρ0 ρ1 ρ2
      obtain ⟨σ0, σ1, σ2, hk⟩ := ih 0 Real.pi Real.pi
      refine ⟨σ0, σ1, σ2, ?_⟩
      rw [fabrikLoop_succ, cycle_straight r0 r1 r2 d ρ0 ρ1 ρ2 h0 h1 h2 hd]
      have hcond : ¬ ((lastD [straightNode r0 0 0, straightNode r1 r0 Real.pi,
          straightNode r2 (r0 + r1) Real.pi]).pos - Vec2.mk d 0).length < 1 := by
        have hlast : lastD [straightNode r0 0 0, straightNode r1 r0 Real.pi,
            straightNode r2 (r0 + r1) Real.pi] = straightNode r2 (r0 + r1) Real.pi := rfl
        rw [hlast]
        simp only [straightNode_pos, Vec2.sub_mk, sub_self, length_x]
        push_neg
        rw [abs_of_nonpos (by linarith)]
        linarith
      dsimp only
      rw [if_neg hcond]
      exact hk

theorem fabrik_straight (r0 r1 r2 d : ℝ) (k : ℕ) (h0 : 0 < r0) (h1 : 0 < r1)
    (h2 : 0 < r2) (hd : r0 + r1 + r2 < d) (hd1 : r0 + r1 + 1 ≤ d) :
    ∃ σ0 σ1 σ2, fabrik (straightM r0 r1 r2) (straightIK d k) =
      (some (false, writeBack (straightM r0 r1 r2) [0, 1, 2]
        [straightNode r0 0 σ0, straightNode r1 r0 σ1,
          straightNode r2 (r0 + r1) σ2]), []) := by
  have hall : ∀ id ∈ ([0, 1, 2] : List NodeID),
      ((straightM r0 r1 r2).nodes id).isSome := by
    intro id hid
    fin_cases hid <;> rfl
  have hgnm : (straightM r0 r1 r2).get_nodes_mut [0, 1, 2] =
      ([straightNode r0 0 0, straightNode r1 r0 0, straightNode r2 (r0 + r1) 0], []) := by
    rw [gnm_success (by decide) hall]
    norm_num [List.filterMap_cons, straightM]
  obtain ⟨σ0, σ1, σ2, hloop⟩ := loop_straight r0 r1 r2 d h0 h1 h2 hd hd1 k 0 0 0
  refine ⟨σ0, σ1, σ2, ?_⟩
  simp only [fabrik, straightIK]
  norm_num [hgnm, straightNode_rotation, hloop]

/-- C8 (amended): for a fully-extended unconstrained straight 3-node chain
anchored at the origin with an unreachable target (`r0 + r1 + r2 <
distance(anchor, target)`, and the shortfall below the full extension of the
two links exceeding the solver's 1-unit threshold), `fabrik` returns `false`
for any cycle budget and the tail ends at distance
`distance(anchor, target) - (r0 + r1)` from the target — the sum of the radii
of all nodes *except the last* (the tail's own radius never contributes a
link). -/
theorem fabrik_unreachable (r0 r1 r2 d : ℝ) (k : ℕ) (h0 : 0 < r0) (h1 : 0 < r1)
    (h2 : 0 < r2) (hreach : r0 + r1 + r2 < d) (htol : r0 + r1 + 1 ≤ d) :
    ∃ m2, (fabrik (straightM r0 r1 r2) (straightIK d k)).1 = some (false, m2) ∧
      ∃ n2, m2.nodes 2 = some n2 ∧
        (n2.pos - (straightIK d k).target).length =
          ((straightIK d k).target - Vec2.mk 0 0).length - (r0 + r1) := by
  obtain ⟨σ0, σ1, σ2, hrun⟩ := fabrik_straight r0 r1 r2 d k h0 h1 h2 hreach htol
  refine ⟨_, by rw [hrun], straightNode r2 (r0 + r1) σ2, ?_, ?_⟩
  · show (Function.update (Function.update (Function.update
        (straightM r0 r1 r2).nodes 0 (some (straightNode r0 0 σ0)))
        1 (some (straightNode r1 r0 σ1)))
        2 (some (straightNode r2 (r0 + r1) σ2))) 2 = some (straightNode r2 (r0 + r1) σ2)
    exact Function.update_same _ _ _
  · simp only [straightNode_pos, straightIK, Vec2.sub_mk, sub_self, sub_zero, length_x]
    rw [abs_of_nonpos (by linarith), abs_of_nonneg (by linarith)]
    ring

/-- C8 counterexample: radii `2, 2, 2`, anchor `(0,0)`, target `(20,0)`,
one cycle. The tail ends at distance `16` from the target, while the claim's
formula `distance(anchor,target) - sum(radius)` predicts `14`; the gap of `2`
exceeds the solver's own 1-unit tolerance. -/
theorem fabrik_unreachable_counterexample :
    ∃ m2, (fabrik (straightM 2 2 2) (straightIK 20 1)).1 = some (false, m2) ∧
      ∃ n2, m2.nodes 2 = some n2 ∧
        (n2.pos - (straightIK 20 1).target).length = 16 ∧
        ((straightIK 20 1).target - Vec2.mk 0 0).length - (2 + 2 + 2) = 14 ∧
        ¬ (|(16 : ℝ) - 14| < 1) := by
  obtain ⟨σ0, σ1, σ2, hrun⟩ := fabrik_straight 2 2 2 20 1
    (by norm_num) (by norm_num) (by norm_num) (by norm_num) (by norm_num)
  refine ⟨_, by rw [hrun], straightNode 2 (2 + 2) σ2, ?_, ?_, ?_, by norm_num⟩
  · show (Function.update (Function.update (Function.update
        (straightM 2 2 2).nodes 0 (some (straightNode 2 0 σ0)))
        1 (some (straightNode 2 2 σ1)))
        2 (some (straightNode 2 (2 + 2) σ2))) 2 = some (straightNode 2 (2 + 2) σ2)
    exact Function.update_same _ _ _
  · simp only [straightNode_pos, straightIK, Vec2.sub_mk, sub_self, length_x]
    rw [abs_of_nonpos (by norm_num)]
    norm_num
  · simp only [straightIK, Vec2.sub_mk, sub_self, sub_zero, length_x]
    rw [abs_of_nonneg (by norm_num)]
    norm_num

/-- C8 witness: the amended statement at radii `2, 2, 2`, target `(20, 0)`,
3 cycles. -/
theorem fabrik_unreachable_witness :
    ∃ m2, (fabrik (straightM 2 2 2) (straightIK 20 3)).1 = some (false, m2) ∧
      ∃ n2, m2.nodes 2 = some n2 ∧
        (n2.pos - (straightIK 20 3).target).length =
          ((straightIK 20 3).target - Vec2.mk 0 0).length - (2 + 2) :=
  fabrik_unreachable 2 2 2 20 3
    (by norm_num) (by norm_num) (by norm_num) (by norm_num) (by norm_num)

/-- C4 witness: the concrete straight-chain run (anchor `Some (0,0)`, one
cycle) leaves the root at the anchor with its entry rotation `0`. -/
theorem fabrik_root_repin_witness :
    ∃ b m2 n02, (fabrik (straightM 2 2 2) (straightIK 20 1)).1 = some (b, m2) ∧
      m2.nodes 0 = some n02 ∧ n02.rotation = 0 ∧ n02.pos = Vec2.mk 0 0 := by
  obtain ⟨σ0, σ1, σ2, hrun⟩ := fabrik_straight 2 2 2 20 1
    (by norm_num) (by norm_num) (by norm_num) (by norm_num) (by norm_num)
  have hsome : (fabrik (straightM 2 2 2) (straightIK 20 1)).1 =
      some (false, writeBack (straightM 2 2 2) [0, 1, 2]
        [straightNode 2 0 σ0, straightNode 2 2 σ1, straightNode 2 (2 + 2) σ2]) := by
    rw [hrun]
  obtain ⟨n02, hn, hrot, hpos⟩ := @fabrik_root_repin (straightM 2 2 2)
    (straightIK 20 1) false _ 0 [1, 2] (straightNode 2 0 0)
    rfl (by decide) (by decide) hsome (by norm_num [straightM])
  exact ⟨false, _, n02, hsome, hn, hrot, hpos⟩

/-- C9 witness: frame conditions of the concrete `process_fk` run on the pair
store and of the concrete `fabrik` run on the straight chain. -/
theorem solver_frame_witness :
    frameProps pairM pairFK.nodes (writeBack pairM [0, 1] [pairA, pairB2]) ∧
    ∃ b m2, (fabrik (straightM 2 2 2) (straightIK 20 1)).1 = some (b, m2) ∧
      frameProps (straightM 2 2 2) (straightIK 20 1).nodes m2 := by
  constructor
  · exact solver_frame.1 pairM pairFK _ (by rw [pair_run])
  · obtain ⟨σ0, σ1, σ2, hrun⟩ := fabrik_straight 2 2 2 20 1
      (by norm_num) (by norm_num) (by norm_num) (by norm_num) (by norm_num)
    exact ⟨false, _, by rw [hrun], solver_frame.2 _ _ _ _ (by rw [hrun])⟩
